import Mathlib

/-!
Verification of the clause segmentation + RAG indexing/retrieval core of the
insurance-decoding repository.

Strings are modelled as lists of characters (`Str`).  Python's `str.strip()`
and the regex split `re.split(r'\n\s*\n', ...)` from `clause_detector.py` are
embedded character by character.  The ChromaDB collection is modelled as a
list of entries, the Gemini embedding API as an oracle supplying the outcome
of each `embed_content` call, and raised exceptions as `Except`/`Option`
error values.
-/

namespace InsDec

abbrev Str := List Char

/-- Python whitespace (`str.strip`, regex `\s`), restricted to the ASCII
whitespace characters: space, tab, newline, carriage return, vertical tab,
form feed. -/
def isSpace (c : Char) : Bool :=
  c = ' ' || c = '\t' || c = '\n' || c = '\r' || c = Char.ofNat 11 || c = Char.ofNat 12

/-- Python `str.strip()`: remove leading and trailing whitespace. -/
def strip (l : Str) : Str :=
  ((l.dropWhile isSpace).reverse.dropWhile isSpace).reverse

/-!
Section: The regex split `re.split(r'\n\s*\n', text)` from `clause_detector.py`

`re.split` scans left to right and removes each leftmost, greedy,
non-overlapping match of the pattern.  For the pattern `\n\s*\n` a match
starting at a newline consumes, greedily, up to the last newline of the
maximal whitespace run that follows.
-/

/-- Greedy tail of a delimiter match: having consumed the initial `'\n'` of
the pattern `\n\s*\n`, consume whitespace up to (and including) the last
`'\n'` of the whitespace run and return the remaining suffix; `none` if the
whitespace run that follows contains no further newline. -/
def scanWs : Str → Option Str
  | [] => none
  | c :: rest =>
    if c = '\n' then
      match scanWs rest with
      | some r => some r
      | none => some rest
    else if isSpace c then scanWs rest
    else none

/-- Leftmost greedy match of `\n\s*\n` at the head of the string: returns the
suffix after the match, or `none` when the pattern does not match here. -/
def matchDelim : Str → Option Str
  | c :: rest => if c = '\n' then scanWs rest else none
  | [] => none

/-- One step of `re.split(r'\n\s*\n', ...)`: `acc` holds the (reversed)
fragment being built; on a delimiter match the fragment is emitted and
scanning resumes after the match.  `fuel` bounds the recursion; any
`fuel > length of the remaining input` computes the true split. -/
def splitAux : Nat → Str → Str → List Str
  | 0, acc, _ => [acc.reverse]
  | _ + 1, acc, [] => [acc.reverse]
  | fuel + 1, acc, c :: rest =>
    match matchDelim (c :: rest) with
    | some r => acc.reverse :: splitAux fuel [] r
    | none => splitAux fuel (c :: acc) rest

/-- The call `re.split(r'\n\s*\n', l)`. -/
def splitParas (l : Str) : List Str := splitAux (l.length + 1) [] l

/-!
Section: Decimal rendering of naturals, for the f-string `f'p{page}_c{seq}'`
-/

/-- The decimal digit characters. -/
def digitChar (d : Nat) : Char :=
  match d with
  | 0 => '0' | 1 => '1' | 2 => '2' | 3 => '3' | 4 => '4'
  | 5 => '5' | 6 => '6' | 7 => '7' | 8 => '8' | 9 => '9'
  | _ => '*'

/-- Little-endian digits of a positive natural; `fuel ≥ n` suffices. -/
def natDigitsAux : Nat → Nat → List Char
  | 0, _ => []
  | _ + 1, 0 => []
  | fuel + 1, n + 1 => digitChar ((n + 1) % 10) :: natDigitsAux fuel ((n + 1) / 10)

/-- Decimal rendering of a natural number, as produced by Python string
formatting. -/
def natStr (n : Nat) : Str :=
  if n = 0 then ['0'] else (natDigitsAux n n).reverse

/-- The f-string `f'p{page_num}_c{seq}'` building a clause identifier. -/
def mkClauseId (page seq : Nat) : Str :=
  'p' :: natStr page ++ '_' :: 'c' :: natStr seq

/-!
Section: `clause_detector.segment_text_into_clauses`
-/

/-- A clause record as produced by `segment_text_into_clauses`. -/
structure Clause where
  clause_id : Str
  page_num : Nat
  text : Str
deriving DecidableEq, Repr

/-- The body of the per-page loop of `segment_text_into_clauses`: split the
stripped page text into paragraphs, strip each, keep the non-empty ones, and
attach `clause_id = f'p{page_num}_c{para_index + 1}'`.  (The source also
increments a `clause_counter` variable, but that counter never reaches the
output.) -/
def segmentPage (page_num : Nat) (page_text : Str) : List Clause :=
  (splitParas (strip page_text)).enum.filterMap fun ip =>
    let cleaned := strip ip.2
    if cleaned.isEmpty then none
    else some { clause_id := mkClauseId page_num (ip.1 + 1), page_num := page_num, text := cleaned }

/-- The function `segment_text_into_clauses(page_texts)`: pages are enumerated from 1 and
their clause lists are concatenated in order. -/
def segment_text_into_clauses (page_texts : List Str) : List Clause :=
  (page_texts.enum.map fun it => segmentPage (it.1 + 1) it.2).flatten

/-- The function `count_clauses(clauses)`. -/
def count_clauses (clauses : List Clause) : Nat := clauses.length

/-!
Section: The split described by the spec sentence behind claim C3

Modelled from the spec: "split its text on boundaries of two-or-more
consecutive newline characters".  A delimiter is a maximal run of at least
two consecutive `'\n'` characters, with no other whitespace admitted inside
the delimiter.  (Defined only to compare with the source's `\n\s*\n` split.)
-/

/-- Modelled from the spec: delimiter match for "two-or-more consecutive
newline characters" — at least two leading newlines, consuming the whole
newline run. -/
def matchNlRun : Str → Option Str
  | c1 :: c2 :: rest =>
    if c1 = '\n' && c2 = '\n' then some (rest.dropWhile (fun c => c = '\n')) else none
  | _ => none

/-- Modelled from the spec: splitting on runs of two-or-more consecutive
newlines, same scanning scheme as `splitAux`. -/
def splitNlRunAux : Nat → Str → Str → List Str
  | 0, acc, _ => [acc.reverse]
  | _ + 1, acc, [] => [acc.reverse]
  | fuel + 1, acc, c :: rest =>
    match matchNlRun (c :: rest) with
    | some r => acc.reverse :: splitNlRunAux fuel [] r
    | none => splitNlRunAux fuel (c :: acc) rest

/-- Modelled from the spec: the clause texts claim C3 predicts for a list of
page texts — per page, split on runs of two-or-more consecutive newlines,
trim each fragment, discard the empty ones, preserving order. -/
def specC3Texts (page_texts : List Str) : List Str :=
  page_texts.flatMap fun p =>
    ((splitNlRunAux (p.length + 1) [] p).map strip).filter fun t => ¬t.isEmpty

/-!
Section: Embedding API responses and the two response normalizers

`chroma_helper.extract_embeddings_from_response` and
`rag_store.extract_single_embedding` probe the response object with
duck-typed attribute checks.  An attribute that is absent (or `None` for the
top-level ones) is modelled as `none`.  A raised `AttributeError`/`IndexError`
is modelled as the result `none` of the extractor.
-/

/-- An embedding vector. -/
abbrev Vec := List Int

/-- A per-item embedding object inside `response.embeddings` (such as
`ContentEmbedding`): it may expose a `value` field and/or an `embedding`
field. -/
structure ItemEmb where
  value : Option Vec
  embedding : Option Vec
deriving DecidableEq, Repr

/-- An embedding API response, as probed by the two extractors: a top-level
`embedding` attribute, a top-level `values` attribute, or a list
`embeddings` of per-item objects. -/
structure EmbResponse where
  embedding : Option (List Vec)
  values : Option (List Vec)
  embeddings : Option (List ItemEmb)
deriving DecidableEq, Repr

/-- The item access `e.value if hasattr(e, 'value') else e.embedding` used by
the batch extractor (`none` = an `AttributeError` is raised). -/
def itemVec (e : ItemEmb) : Option Vec :=
  match e.value with
  | some v => some v
  | none => e.embedding

/-- The list comprehension `[e.value if hasattr(e, 'value') else e.embedding
for e in response.embeddings]`: builds the per-item vectors in order, raising
(`none`) at the first item that exposes neither field. -/
def extractItems : List ItemEmb → Option (List Vec)
  | [] => some []
  | e :: tl =>
    match itemVec e with
    | none => none
    | some v =>
      match extractItems tl with
      | none => none
      | some ws => some (v :: ws)

/-- The function `chroma_helper.extract_embeddings_from_response`: probe the three known
shapes in order; `none` models the raised `AttributeError` when no shape
matches (or an item exposes neither field). -/
def extract_embeddings_from_response (r : EmbResponse) : Option (List Vec) :=
  match r.embedding with
  | some v => some v
  | none =>
    match r.values with
    | some v => some v
    | none =>
      match r.embeddings with
      | some es => extractItems es
      | none => none

/-- The function `rag_store.extract_single_embedding`: same probing order, but taking the
first element at each step (`response.embedding[0]`, `response.values[0]`,
`response.embeddings[0]`); an out-of-range index or missing attribute raises,
modelled as `none`. -/
def extract_single_embedding (r : EmbResponse) : Option Vec :=
  match r.embedding with
  | some v => v.head?
  | none =>
    match r.values with
    | some v => v.head?
    | none =>
      match r.embeddings with
      | some es =>
        match es.head? with
        | some e =>
          match e.value with
          | some v => some v
          | none => e.embedding
        | none => none
      | none => none

/-!
Section: `chroma_helper.get_rag_collection`

The Gemini client is an oracle: `oracle chunk attempt` is the outcome of the
`embed_content` call for the given chunk of texts at the given (0-based)
retry attempt.  `time.sleep(wait_time)` is recorded in a list of waits.
-/

/-- Outcome of one `client_gemini.models.embed_content` call: a response
object, a raised `google.genai.errors.APIError`, or any other raised
exception. -/
inductive AttemptOutcome where
  | resp (r : EmbResponse)
  | apiErr
  | otherErr
deriving DecidableEq, Repr

/-- How an embedding batch fails: as an `APIError` or as any other
exception (`AttributeError` from extraction, or an arbitrary error). -/
inductive EmbErr where
  | api
  | other
deriving DecidableEq, Repr

instance instDecEqExcept {ε α : Type} [DecidableEq ε] [DecidableEq α] :
    DecidableEq (Except ε α) := fun x y =>
  match x, y with
  | .ok a, .ok b =>
    if h : a = b then .isTrue (by rw [h]) else .isFalse (by simp [h])
  | .error a, .error b =>
    if h : a = b then .isTrue (by rw [h]) else .isFalse (by simp [h])
  | .ok _, .error _ => .isFalse (by simp)
  | .error _, .ok _ => .isFalse (by simp)

/-- Result of the per-chunk retry loop: the vectors or the raised error,
the `time.sleep` waits performed (in seconds, in order), and the number of
`embed_content` calls made. -/
structure RetryResult where
  result : Except EmbErr (List Vec)
  waits : List Nat
  calls : Nat
deriving DecidableEq, Repr

/-- The constant `max_retries = 3` in `get_rag_collection`. -/
def max_retries : Nat := 3

/-- The `for attempt in range(max_retries)` loop body of
`get_rag_collection`: call `embed_content`, extract the vectors, break on
success; on `APIError` sleep `2 ** attempt` seconds and retry while
`attempt < max_retries - 1`, else re-raise an `APIError`.  Any non-`APIError`
exception (a failed extraction) propagates immediately.  `rem` is the number
of attempts still allowed (`max_retries - attempt` at entry). -/
def retryEmbed (f : Nat → AttemptOutcome) : Nat → Nat → RetryResult
  | _, 0 => ⟨.error .api, [], 0⟩
  | attempt, rem + 1 =>
    match f attempt with
    | .resp r =>
      match extract_embeddings_from_response r with
      | some vs => ⟨.ok vs, [], 1⟩
      | none => ⟨.error .other, [], 1⟩
    | .otherErr => ⟨.error .other, [], 1⟩
    | .apiErr =>
      if attempt < max_retries - 1 then
        let next := retryEmbed f (attempt + 1) rem
        ⟨next.result, 2 ^ attempt :: next.waits, next.calls + 1⟩
      else ⟨.error .api, [], 1⟩

/-- The full retry loop for one chunk, starting at attempt 0. -/
def retryChunk (f : Nat → AttemptOutcome) : RetryResult :=
  retryEmbed f 0 max_retries

/-- The constant `batch_size = 50` in `get_rag_collection`. -/
def batch_size : Nat := 50

/-- The slices `texts[i:i + batch_size]` for `i in range(0, len(texts), batch_size)`:
the list of chunks.  `fuel > number of chunks` suffices. -/
def chunksOf : Nat → List α → List (List α)
  | 0, _ => []
  | _ + 1, [] => []
  | fuel + 1, l => l.take batch_size :: chunksOf fuel (l.drop batch_size)

/-- The chunks of a text list, as produced by the batching loop. -/
def chunks (texts : List Str) : List (List Str) := chunksOf (texts.length + 1) texts

/-- The batching loop: per chunk run the retry loop and extend the
accumulated embeddings; a raised error aborts the loop and propagates.
Returns also the total number of `embed_content` calls. -/
def embedBatchesAux (oracle : Nat → Nat → AttemptOutcome) :
    Nat → List (List Str) → Except EmbErr (List Vec) × Nat
  | _, [] => (.ok [], 0)
  | ci, _ :: rest =>
    let r := retryChunk (oracle ci)
    match r.result with
    | .error e => (.error e, r.calls)
    | .ok vs =>
      let tail := embedBatchesAux oracle (ci + 1) rest
      (tail.1.map fun ws => vs ++ ws, r.calls + tail.2)

/-- Embedding generation for all texts: chunk, then loop. -/
def embedBatches (oracle : Nat → Nat → AttemptOutcome) (texts : List Str) :
    Except EmbErr (List Vec) × Nat :=
  embedBatchesAux oracle 0 (chunks texts)

/-- One entry of the ChromaDB collection, as passed to `collection.add`:
id, embedding, document text and the `{'page_num': ...}` metadata. -/
structure Entry where
  id : Str
  embedding : Vec
  document : Str
  page_num : Nat
deriving DecidableEq, Repr

/-- The handle `get_rag_collection` returns: the real ChromaDB collection
(its list of entries) or a `DummyCollection` carrying a `failure_reason`. -/
inductive Collection where
  | real (entries : List Entry)
  | dummy (failure_reason : Str)
deriving DecidableEq, Repr

/-- The method `collection.count()`: a `DummyCollection` always reports 0. -/
def Collection.count : Collection → Nat
  | .real entries => entries.length
  | .dummy _ => 0

/-- The `ValueError` message raised by `get_gemini_client_for_rag` wrapped in
the f-string of the first `except` branch. -/
def msgKeyMissing : Str :=
  ("RAG Setup Error (Key Missing): GEMINI_API_KEY not found in environment variables.").data

/-- The f-string of the `except APIError` branch (the text of the wrapped
exception is abstracted to the one raised on retry exhaustion). -/
def msgSetupApiError : Str :=
  ("Gemini API Error during embedding generation: Failed to generate embeddings after 3 attempts.").data

/-- The f-string of the `except Exception` branch (the wrapped exception
text is abstracted away). -/
def msgSetupUnexpected : Str :=
  ("An unexpected error occurred in RAG setup: (exception text)").data

/-- The entries `collection.add(embeddings=..., documents=texts,
metadatas=..., ids=...)` inserts: ids, documents and metadata come from the
clauses, zipped with the generated embeddings. -/
def buildEntries (clauses : List Clause) (embs : List Vec) : List Entry :=
  (clauses.zip embs).map fun ce =>
    { id := ce.1.clause_id, embedding := ce.2, document := ce.1.text, page_num := ce.1.page_num }

/-- The outcome of `get_rag_collection`: the returned handle, the final
contents of the underlying collection, and the number of `embed_content`
calls made. -/
structure RagOutcome where
  handle : Collection
  store : List Entry
  embedCalls : Nat
deriving DecidableEq, Repr

/-- The function `chroma_helper.get_rag_collection(client, clauses)`.  `apiKey` models
`os.getenv("GEMINI_API_KEY")`; `store` is the current contents of the
(got-or-created) collection; `oracle` supplies the `embed_content`
outcomes.  All indexing-time exceptions are converted to a
`DummyCollection`. -/
def get_rag_collection (apiKey : Option Str) (store : List Entry)
    (clauses : List Clause) (oracle : Nat → Nat → AttemptOutcome) : RagOutcome :=
  match apiKey with
  | none => ⟨.dummy msgKeyMissing, store, 0⟩
  | some _ =>
    if store.length = 0 ∧ clauses ≠ [] then
      let texts := clauses.map Clause.text
      let eb := embedBatches oracle texts
      match eb.1 with
      | .ok embs =>
        if embs.isEmpty then ⟨.real store, store, eb.2⟩
        else
          let newStore := store ++ buildEntries clauses embs
          ⟨.real newStore, newStore, eb.2⟩
      | .error .api => ⟨.dummy msgSetupApiError, store, eb.2⟩
      | .error .other => ⟨.dummy msgSetupUnexpected, store, eb.2⟩
    else ⟨.real store, store, 0⟩

/-!
Section: `rag_store.query_rag_store`
-/

/-- The environment of one `query_rag_store` call: the outcome of the
query-embedding `embed_content` call, and the backend similarity search
(`collection.query(query_embeddings=[qv], n_results=k, ...)`), returning the
`documents` lists (one list per query embedding). -/
structure QueryEnv where
  embedOutcome : AttemptOutcome
  search : Vec → Nat → List (List Str)

/-- Literal returned when the search yields no documents. -/
def msgNoRelevant : Str := ("No relevant clauses found in the policy.").data

/-- Literal returned from the `except APIError` branch of the query path. -/
def msgQueryApiError : Str :=
  ("Error querying the policy index due to Gemini API failure.").data

/-- Literal returned from the `except Exception` branch of the query path. -/
def msgQueryUnexpected : Str :=
  ("An unexpected error occurred during RAG query.").data

/-- The separator `"\n---\n"` of `"\n---\n".join(relevant_clauses)`. -/
def querySep : Str := ("\n---\n").data

/-- The function `rag_store.query_rag_store(collection, query_text, k)`.  `Except.error ()`
models an exception escaping to the caller.  The `count() == 0` branch runs
outside the `try` block: on a `DummyCollection` the dummy `query` hands back
`[[failure_reason]]` and `[0][0]` yields the reason; on a real but empty
collection the backend search finds no documents, `.get('documents', [[]])`
is `[[]]`, and the subscription `[0][0]` raises an uncaught `IndexError`. -/
def query_rag_store (collection : Collection) (query_text : Str) (k : Nat)
    (env : QueryEnv) : Except Unit Str :=
  if collection.count = 0 then
    match collection with
    | .dummy reason => .ok reason
    | .real _ => .error ()
  else
    match env.embedOutcome with
    | .apiErr => .ok msgQueryApiError
    | .otherErr => .ok msgQueryUnexpected
    | .resp r =>
      match extract_single_embedding r with
      | none => .ok msgQueryUnexpected
      | some qv =>
        let relevant := (env.search qv k).flatten
        if relevant.isEmpty then .ok msgNoRelevant
        else .ok (List.intercalate querySep relevant)

/-!
Part: Helper lemmas: whitespace, `strip`, and the regex split
-/

theorem head?_dropWhile_false {α : Type} {p : α → Bool} {l : List α} {c : α}
    (h : (l.dropWhile p).head? = some c) : p c = false := by
  induction l with
  | nil => simp [List.dropWhile] at h
  | cons a t ih =>
    by_cases hp : p a
    · rw [List.dropWhile_cons_of_pos hp] at h
      exact ih h
    · rw [List.dropWhile_cons_of_neg hp] at h
      simp at h
      rw [← h]
      exact Bool.of_not_eq_true hp

theorem strip_reverse_head {l : Str} {c : Char}
    (h : (strip l).reverse.head? = some c) : isSpace c = false := by
  unfold strip at h
  rw [List.reverse_reverse] at h
  exact head?_dropWhile_false h

theorem strip_append_structure (l : Str) :
    l.dropWhile isSpace =
      strip l ++ ((l.dropWhile isSpace).reverse.takeWhile isSpace).reverse := by
  unfold strip
  rw [← List.reverse_append, List.takeWhile_append_dropWhile, List.reverse_reverse]

theorem strip_head {l : Str} {c : Char} (h : (strip l).head? = some c) :
    isSpace c = false := by
  have hA : (l.dropWhile isSpace).head? = some c := by
    rw [strip_append_structure l]
    obtain ⟨d, t, ht⟩ := List.exists_cons_of_ne_nil
      (show strip l ≠ [] from fun hn => by rw [hn] at h; simp at h)
    rw [ht] at h ⊢
    simpa using h
  exact head?_dropWhile_false hA

theorem strip_all_space {l : Str} (h : ∀ c ∈ l, isSpace c = true) : strip l = [] := by
  have h1 : l.dropWhile isSpace = [] := by
    rw [List.dropWhile_eq_nil_iff]
    exact h
  unfold strip
  rw [h1]
  rfl

theorem strip_has_nonspace {l : Str} (h : strip l ≠ []) :
    ∃ c ∈ strip l, isSpace c = false := by
  rcases hB : (strip l) with _ | ⟨d, t⟩
  · exact absurd hB h
  · refine ⟨d, by simp, ?_⟩
    refine strip_head (show (strip l).head? = some d from ?_)
    rw [hB]
    rfl

theorem strip_of_clean {s : Str}
    (hh : ∀ c, s.head? = some c → isSpace c = false)
    (hl : ∀ c, s.reverse.head? = some c → isSpace c = false) : strip s = s := by
  rcases s with _ | ⟨d, t⟩
  · rfl
  · have hd : isSpace d = false := hh d rfl
    obtain ⟨e, u, hr⟩ := List.exists_cons_of_ne_nil
      (fun hn => by simpa using congrArg List.length hn : (d :: t).reverse ≠ [])
    have he : isSpace e = false := hl e (by rw [hr]; rfl)
    unfold strip
    rw [List.dropWhile_cons_of_neg (by simp [hd]), hr,
      List.dropWhile_cons_of_neg (by simp [he]), ← hr, List.reverse_reverse]

theorem strip_idem (l : Str) : strip (strip l) = strip l :=
  strip_of_clean (fun _ h => strip_head h) (fun _ h => strip_reverse_head h)

/-- The last character of a string is not whitespace (`false` on the empty
string); phrased through the head of the reversal. -/
def lastNonSpace (l : Str) : Bool :=
  match l.reverse.head? with
  | some c => !isSpace c
  | none => false

theorem lastNonSpace_append {xs ys : Str} (h : ys ≠ []) :
    lastNonSpace (xs ++ ys) = lastNonSpace ys := by
  obtain ⟨c, t, ht⟩ := List.exists_cons_of_ne_nil (by simpa using (mt List.reverse_eq_nil_iff.mp h) : ys.reverse ≠ [])
  unfold lastNonSpace
  rw [List.reverse_append, ht]
  rfl

theorem lastNonSpace_strip {l : Str} (h : strip l ≠ []) :
    lastNonSpace (strip l) = true := by
  obtain ⟨c, t, ht⟩ := List.exists_cons_of_ne_nil (by simpa using (mt List.reverse_eq_nil_iff.mp h) : (strip l).reverse ≠ [])
  have hc : isSpace c = false := strip_reverse_head (by rw [ht]; rfl)
  unfold lastNonSpace
  rw [ht]
  simp [hc]

theorem takeWhile_append_all {p : Char → Bool} {xs ys : Str}
    (h : ∀ c ∈ xs, p c = true) : (xs ++ ys).takeWhile p = xs ++ ys.takeWhile p := by
  induction xs with
  | nil => simp
  | cons a t ih =>
    have ha : p a = true := h a (by simp)
    simp only [List.cons_append, List.takeWhile_cons_of_pos ha]
    rw [ih fun c hc => h c (by simp [hc])]

/-!
Section: Structure lemmas for the delimiter matcher
-/

theorem scanWs_none {l : Str} (h : scanWs l = none) :
    '\n' ∉ l.takeWhile isSpace := by
  induction l with
  | nil => simp
  | cons c rest ih =>
    by_cases hc : c = '\n'
    · subst hc
      unfold scanWs at h
      simp at h
      rcases hr : scanWs rest with _ | r <;> rw [hr] at h <;> simp at h
    · by_cases hs : isSpace c
      · unfold scanWs at h
        rw [if_neg hc, if_pos hs] at h
        rw [List.takeWhile_cons_of_pos hs]
        intro hmem
        rcases List.mem_cons.mp hmem with h1 | h2
        · exact hc h1.symm
        · exact ih h h2
      · rw [List.takeWhile_cons_of_neg (by simpa using hs)]
        simp

theorem scanWs_some {l r : Str} (h : scanWs l = some r) :
    ('\n' ∉ r.takeWhile isSpace) ∧ ∃ p, l = p ++ '\n' :: r := by
  induction l generalizing r with
  | nil => simp [scanWs] at h
  | cons c rest ih =>
    by_cases hc : c = '\n'
    · subst hc
      unfold scanWs at h
      simp at h
      rcases hr : scanWs rest with _ | r2
      · rw [hr] at h
        simp at h
        subst h
        exact ⟨scanWs_none hr, [], rfl⟩
      · rw [hr] at h
        simp at h
        subst h
        obtain ⟨hws, p, hp⟩ := ih hr
        exact ⟨hws, '\n' :: p, by rw [hp]; rfl⟩
    · by_cases hs : isSpace c
      · unfold scanWs at h
        rw [if_neg hc, if_pos hs] at h
        obtain ⟨hws, p, hp⟩ := ih h
        exact ⟨hws, c :: p, by rw [hp]; rfl⟩
      · unfold scanWs at h
        rw [if_neg hc, if_neg hs] at h
        exact absurd h (by simp)

theorem matchDelim_some {l r : Str} (h : matchDelim l = some r) :
    ('\n' ∉ r.takeWhile isSpace) ∧ ∃ p, l = '\n' :: p ++ '\n' :: r := by
  rcases l with _ | ⟨c, rest⟩
  · simp [matchDelim] at h
  · simp only [matchDelim] at h
    by_cases hc : c = '\n'
    · subst hc
      rw [if_pos rfl] at h
      obtain ⟨hws, p, hp⟩ := scanWs_some h
      exact ⟨hws, p, by rw [hp]; simp⟩
    · rw [if_neg hc] at h
      exact absurd h (by simp)

theorem matchDelim_head {c : Char} {rest r : Str}
    (h : matchDelim (c :: rest) = some r) : c = '\n' := by
  simp only [matchDelim] at h
  by_cases hc : c = '\n'
  · exact hc
  · rw [if_neg hc] at h
    exact absurd h (by simp)

theorem matchDelim_length {l r : Str} (h : matchDelim l = some r) :
    r.length < l.length := by
  obtain ⟨-, p, hp⟩ := matchDelim_some h
  rw [hp]
  simp
  omega

/-!
Section: No fragment of the split of a stripped non-empty string is whitespace-only

`re.split(r'\n\s*\n', s)` on a string `s` that neither starts nor ends with
whitespace produces only fragments containing a non-whitespace character:
each delimiter match ends at the last newline of its whitespace run, so the
text up to the next delimiter (which again starts with a newline) must pass
through a non-whitespace character.
-/

theorem splitAux_nonspace :
    ∀ (fuel : Nat) (l acc : Str), l.length < fuel →
      lastNonSpace (acc.reverse ++ l) = true →
      ((∃ c ∈ acc, isSpace c = false) ∨ '\n' ∉ (acc.reverse ++ l).takeWhile isSpace) →
      ∀ F ∈ splitAux fuel acc l, ∃ c ∈ F, isSpace c = false := by
  intro fuel
  induction fuel with
  | zero => intro l acc hlen; omega
  | succ fuel ih =>
    intro l acc hlen hlast hfirst F hF
    rcases l with _ | ⟨c, rest⟩
    · simp [splitAux] at hF
      subst hF
      simp only [List.append_nil] at hlast
      unfold lastNonSpace at hlast
      rw [List.reverse_reverse] at hlast
      rcases hh : acc.head? with _ | d
      · rw [hh] at hlast; simp at hlast
      · rw [hh] at hlast
        simp at hlast
        rcases acc with _ | ⟨a, t⟩
        · simp at hh
        · simp at hh
          subst hh
          exact ⟨a, by simp, hlast⟩
    · unfold splitAux at hF
      rcases hm : matchDelim (c :: rest) with _ | r
      · rw [hm] at hF
        apply ih rest (c :: acc) (by simpa using Nat.lt_of_succ_lt_succ hlen)
        · rw [List.reverse_cons, List.append_assoc]
          simpa using hlast
        · rcases hfirst with hacc | hws
          · left
            obtain ⟨d, hd, hds⟩ := hacc
            exact ⟨d, by simp [hd], hds⟩
          · by_cases hc : isSpace c
            · right
              rw [List.reverse_cons, List.append_assoc]
              simpa using hws
            · left
              exact ⟨c, by simp, by simpa using hc⟩
        · exact hF
      · rw [hm] at hF
        have hcnl : c = '\n' := matchDelim_head hm
        obtain ⟨hwsr, p, hp⟩ := matchDelim_some hm
        have haccns : ∃ d ∈ acc, isSpace d = false := by
          rcases hfirst with hacc | hws
          · exact hacc
          · by_contra hno
            push_neg at hno
            have hallsp : ∀ d ∈ acc.reverse, isSpace d = true := by
              intro d hd
              have := hno d (List.mem_reverse.mp hd)
              simpa using this
            rw [takeWhile_append_all hallsp] at hws
            subst hcnl
            rw [List.takeWhile_cons_of_pos (by simp [isSpace])] at hws
            simp at hws
        have hrne : r ≠ [] := by
          intro hr
          subst hr
          rw [hp] at hlast
          have : acc.reverse ++ '\n' :: p ++ ['\n'] =
              (acc.reverse ++ '\n' :: p) ++ ['\n'] := by simp
          rw [show ('\n' :: p ++ ['\n'] : Str) = ('\n' :: p) ++ ['\n'] by simp] at hlast
          rw [← List.append_assoc] at hlast
          rw [lastNonSpace_append (by simp)] at hlast
          unfold lastNonSpace at hlast
          simp [isSpace] at hlast
        rcases List.mem_cons.mp hF with hFacc | hFrec
        · subst hFacc
          obtain ⟨d, hd, hds⟩ := haccns
          exact ⟨d, List.mem_reverse.mpr hd, hds⟩
        · apply ih r []
          · exact Nat.lt_of_lt_of_le (matchDelim_length hm) (Nat.lt_succ_iff.mp hlen)
          · rw [hp] at hlast
            rw [show ('\n' :: p ++ '\n' :: r : Str) = ('\n' :: p ++ ['\n']) ++ r by simp] at hlast
            rw [← List.append_assoc] at hlast
            rw [lastNonSpace_append hrne] at hlast
            simpa using hlast
          · right
            simpa using hwsr
          · exact hFrec

theorem splitParas_nonspace {t : Str} (h : strip t ≠ []) :
    ∀ F ∈ splitParas (strip t), ∃ c ∈ F, isSpace c = false := by
  intro F hF
  apply splitAux_nonspace ((strip t).length + 1) (strip t) [] (by omega) _ _ F hF
  · simpa using lastNonSpace_strip h
  · right
    obtain ⟨d, u, hd⟩ := List.exists_cons_of_ne_nil h
    have hds : isSpace d = false := strip_head (by rw [hd]; rfl)
    simp only [List.reverse_nil, List.nil_append]
    rw [hd, List.takeWhile_cons_of_neg (by simp [hds])]
    simp

/-!
Section: Decimal rendering: correctness and injectivity of `mkClauseId`
-/

/-- Numeric value of a decimal digit character. -/
def charVal (c : Char) : Nat := c.toNat - 48

/-- Reads a digit string back into a number (left inverse of `natStr`). -/
def readNat (l : Str) : Nat := l.foldl (fun a c => 10 * a + charVal c) 0

theorem charVal_digitChar {d : Nat} (h : d < 10) : charVal (digitChar d) = d := by
  interval_cases d <;> decide

theorem digitChar_ne_underscore (d : Nat) : digitChar d ≠ '_' := by
  unfold digitChar
  split <;> decide

theorem readNat_append_digit (l : Str) (c : Char) :
    readNat (l ++ [c]) = 10 * readNat l + charVal c := by
  unfold readNat
  rw [List.foldl_append]
  rfl

theorem readNat_natDigitsAux : ∀ (fuel n : Nat), n ≤ fuel →
    readNat ((natDigitsAux fuel n).reverse) = n := by
  intro fuel
  induction fuel with
  | zero =>
    intro n hn
    interval_cases n
    rfl
  | succ fuel ih =>
    intro n hn
    rcases n with _ | m
    · rfl
    · rw [show natDigitsAux (fuel + 1) (m + 1) =
        digitChar ((m + 1) % 10) :: natDigitsAux fuel ((m + 1) / 10) from rfl]
      rw [List.reverse_cons, readNat_append_digit]
      rw [ih ((m + 1) / 10) (by
        have := Nat.div_lt_self (Nat.succ_pos m) (by omega : 1 < 10)
        omega)]
      rw [charVal_digitChar (Nat.mod_lt _ (by omega))]
      omega

theorem readNat_natStr (n : Nat) : readNat (natStr n) = n := by
  unfold natStr
  by_cases h : n = 0
  · subst h; rfl
  · rw [if_neg h]
    exact readNat_natDigitsAux n n (Nat.le_refl n)

theorem natStr_inj {a b : Nat} (h : natStr a = natStr b) : a = b := by
  have ha := readNat_natStr a
  have hb := readNat_natStr b
  rw [h] at ha
  omega

theorem natDigitsAux_ne_underscore :
    ∀ (fuel n : Nat), ∀ c ∈ natDigitsAux fuel n, c ≠ '_' := by
  intro fuel
  induction fuel with
  | zero => intro n c hc; simp [natDigitsAux] at hc
  | succ fuel ih =>
    intro n c hc
    rcases n with _ | m
    · simp [natDigitsAux] at hc
    · rw [show natDigitsAux (fuel + 1) (m + 1) =
        digitChar ((m + 1) % 10) :: natDigitsAux fuel ((m + 1) / 10) from rfl] at hc
      rcases List.mem_cons.mp hc with h1 | h2
      · rw [h1]; exact digitChar_ne_underscore _
      · exact ih _ c h2

theorem natStr_ne_underscore (n : Nat) : '_' ∉ natStr n := by
  unfold natStr
  by_cases h : n = 0
  · subst h; decide
  · rw [if_neg h]
    intro hc
    exact natDigitsAux_ne_underscore n n '_' (List.mem_reverse.mp hc) rfl

theorem append_sep_inj : ∀ (A B X Y : Str), '_' ∉ A → '_' ∉ B →
    A ++ '_' :: X = B ++ '_' :: Y → A = B ∧ X = Y := by
  intro A
  induction A with
  | nil =>
    intro B X Y _ hB h
    rcases B with _ | ⟨b, B2⟩
    · simpa using h
    · simp at h
      exact absurd (List.mem_cons.mpr (Or.inl h.1)) hB
  | cons a A2 ih =>
    intro B X Y hA hB h
    rcases B with _ | ⟨b, B2⟩
    · simp at h
      exact absurd (by simp [h.1] : '_' ∈ a :: A2) hA
    · simp at h
      obtain ⟨hab, hrest⟩ := h
      obtain ⟨h1, h2⟩ := ih B2 X Y (fun hm => hA (by simp [hm])) (fun hm => hB (by simp [hm])) hrest
      exact ⟨by rw [hab, h1], h2⟩

theorem mkClauseId_inj {p s q t : Nat} (h : mkClauseId p s = mkClauseId q t) :
    p = q ∧ s = t := by
  unfold mkClauseId at h
  simp at h
  obtain ⟨h1, h2⟩ := append_sep_inj (natStr p) (natStr q) ('c' :: natStr s)
    ('c' :: natStr t) (natStr_ne_underscore p) (natStr_ne_underscore q) h
  simp at h2
  exact ⟨natStr_inj h1, natStr_inj h2⟩

/-!
Section: Lemmas about `segmentPage`
-/

theorem strip_eq_nil_all_space {F : Str} (h : strip F = []) :
    ∀ c ∈ F, isSpace c = true := by
  intro c hc
  have h2 : (F.dropWhile isSpace).reverse.dropWhile isSpace = [] := by
    unfold strip at h
    simpa using congrArg List.length h
  have h3 : ∀ x ∈ (F.dropWhile isSpace).reverse, isSpace x = true :=
    List.dropWhile_eq_nil_iff.mp h2
  by_cases hmem : c ∈ F.takeWhile isSpace
  · exact List.mem_takeWhile_imp hmem
  · have : c ∈ F.dropWhile isSpace := by
      have := (List.takeWhile_append_dropWhile (p := isSpace) (l := F))
      rw [← this] at hc
      rcases List.mem_append.mp hc with h5 | h5
      · exact absurd h5 hmem
      · exact h5
    exact h3 c (List.mem_reverse.mpr this)

theorem strip_ne_nil_of_nonspace {F : Str} (h : ∃ c ∈ F, isSpace c = false) :
    strip F ≠ [] := by
  obtain ⟨c, hc, hs⟩ := h
  intro hnil
  have := strip_eq_nil_all_space hnil c hc
  rw [this] at hs
  exact Bool.true_eq_false.mp hs

theorem isEmpty_false_of_ne_nil {α : Type} {l : List α} (h : l ≠ []) : l.isEmpty = false := by
  rcases l with _ | ⟨c, t⟩
  · exact absurd rfl h
  · rfl

theorem segmentPage_empty {page : Nat} {t : Str} (h : strip t = []) :
    segmentPage page t = [] := by
  unfold segmentPage
  rw [h]
  rfl

theorem segFilterMap_eq_map (page : Nat) :
    ∀ (L : List Str) (k : Nat), (∀ F ∈ L, strip F ≠ []) →
      (List.enumFrom k L).filterMap
        (fun ip =>
          let cleaned := strip ip.2
          if cleaned.isEmpty then none
          else some ({ clause_id := mkClauseId page (ip.1 + 1),
                       page_num := page,
                       text := cleaned } : Clause)) =
      (List.enumFrom k L).map fun ip =>
        ({ clause_id := mkClauseId page (ip.1 + 1),
           page_num := page,
           text := strip ip.2 } : Clause) := by
  intro L
  induction L with
  | nil => intro k _; rfl
  | cons F L2 ih =>
    intro k hall
    have hF : (strip F).isEmpty = false := isEmpty_false_of_ne_nil (hall F (by simp))
    simp only [List.enumFrom_cons, List.filterMap_cons, List.map_cons]
    rw [ih (k + 1) fun G hG => hall G (by simp [hG])]
    simp [hF]

theorem segmentPage_eq_map {page : Nat} {t : Str} (h : strip t ≠ []) :
    segmentPage page t = (splitParas (strip t)).enum.map fun ip =>
      ({ clause_id := mkClauseId page (ip.1 + 1),
         page_num := page,
         text := strip ip.2 } : Clause) := by
  unfold segmentPage
  exact segFilterMap_eq_map page (splitParas (strip t)) 0
    (fun F hF => strip_ne_nil_of_nonspace (splitParas_nonspace h F hF))

theorem segmentPage_ids (page : Nat) (t : Str) :
    (segmentPage page t).map Clause.clause_id =
      (List.range (segmentPage page t).length).map fun j => mkClauseId page (j + 1) := by
  by_cases h : strip t = []
  · rw [segmentPage_empty h]
    rfl
  · rw [segmentPage_eq_map h]
    rw [List.map_map, List.length_map, List.enum_length,
      ← List.enum_map_fst (splitParas (strip t)), List.map_map]
    rfl

theorem segmentPage_shape {page : Nat} {t : Str} {c : Clause}
    (h : c ∈ segmentPage page t) :
    c.page_num = page ∧ (∃ s, c.clause_id = mkClauseId page s) ∧
      ∃ F, c.text = strip F ∧ strip F ≠ [] := by
  unfold segmentPage at h
  obtain ⟨ip, _, hf⟩ := List.mem_filterMap.mp h
  by_cases he : (strip ip.2).isEmpty
  · simp [he] at hf
  · simp [he] at hf
    refine ⟨by rw [← hf], ⟨ip.1 + 1, by rw [← hf]⟩, ip.2, by rw [← hf], ?_⟩
    intro hnil
    rw [hnil] at he
    exact he rfl

/-!
Section: Document-level assembly
-/

/-- The clause list produced for `pages` when page numbering starts at
`k + 1` (the generalization of `segment_text_into_clauses` needed for
induction; the function itself is the case `k = 0`). -/
def pagesFrom (k : Nat) (pages : List Str) : List Clause :=
  ((List.enumFrom k pages).map fun it => segmentPage (it.1 + 1) it.2).flatten

theorem segment_eq_pagesFrom (pages : List Str) :
    segment_text_into_clauses pages = pagesFrom 0 pages := rfl

theorem pagesFrom_cons (k : Nat) (t : Str) (rest : List Str) :
    pagesFrom k (t :: rest) = segmentPage (k + 1) t ++ pagesFrom (k + 1) rest := by
  unfold pagesFrom
  rw [List.enumFrom_cons, List.map_cons, List.flatten_cons]

theorem pagesFrom_mem : ∀ (pages : List Str) (k : Nat) (c : Clause),
    c ∈ pagesFrom k pages →
      ∃ i t, pages[i]? = some t ∧ c ∈ segmentPage (k + i + 1) t := by
  intro pages
  induction pages with
  | nil => intro k c hc; simp [pagesFrom] at hc
  | cons t rest ih =>
    intro k c hc
    rw [pagesFrom_cons] at hc
    rcases List.mem_append.mp hc with h1 | h1
    · exact ⟨0, t, by simp, h1⟩
    · obtain ⟨i, u, hu, hmem⟩ := ih (k + 1) c h1
      exact ⟨i + 1, u, by simpa using hu, by
        have : k + (i + 1) + 1 = k + 1 + i + 1 := by omega
        rw [this]
        exact hmem⟩

theorem pagesFrom_page_ge {pages : List Str} {k : Nat} {c : Clause}
    (hc : c ∈ pagesFrom k pages) : k + 1 ≤ c.page_num := by
  obtain ⟨i, t, _, hmem⟩ := pagesFrom_mem pages k c hc
  have := (segmentPage_shape hmem).1
  omega

theorem pagesFrom_id_shape {pages : List Str} {k : Nat} {c : Clause}
    (hc : c ∈ pagesFrom k pages) :
    ∃ s, c.clause_id = mkClauseId c.page_num s := by
  obtain ⟨i, t, _, hmem⟩ := pagesFrom_mem pages k c hc
  obtain ⟨hp, ⟨s, hs⟩, -⟩ := segmentPage_shape hmem
  exact ⟨s, by rw [hp]; exact hs⟩

theorem pagesFrom_filter_ids (p : Nat) :
    ∀ (pages : List Str) (k : Nat),
      ((pagesFrom k pages).filter fun c => c.page_num == p).map Clause.clause_id =
        (List.range ((pagesFrom k pages).filter fun c => c.page_num == p).length).map
          fun j => mkClauseId p (j + 1) := by
  intro pages
  induction pages with
  | nil => intro k; rfl
  | cons t rest ih =>
    intro k
    rw [pagesFrom_cons, List.filter_append]
    by_cases hp : p = k + 1
    · have h1 : (segmentPage (k + 1) t).filter (fun c => c.page_num == p) =
          segmentPage (k + 1) t := by
        apply List.filter_eq_self.mpr
        intro c hc
        have := (segmentPage_shape hc).1
        simp [this, hp]
      have h2 : (pagesFrom (k + 1) rest).filter (fun c => c.page_num == p) = [] := by
        apply List.filter_eq_nil_iff.mpr
        intro c hc
        have := pagesFrom_page_ge hc
        simp
        omega
      rw [h1, h2, List.append_nil, hp]
      exact segmentPage_ids (k + 1) t
    · have h1 : (segmentPage (k + 1) t).filter (fun c => c.page_num == p) = [] := by
        apply List.filter_eq_nil_iff.mpr
        intro c hc
        have := (segmentPage_shape hc).1
        simp [this]
        omega
      rw [h1, List.nil_append]
      exact ih (k + 1)

theorem pagesFrom_ids_nodup : ∀ (pages : List Str) (k : Nat),
    ((pagesFrom k pages).map Clause.clause_id).Nodup := by
  intro pages
  induction pages with
  | nil => intro k; simp [pagesFrom]
  | cons t rest ih =>
    intro k
    rw [pagesFrom_cons, List.map_append]
    rw [List.nodup_append]
    refine ⟨?_, ih (k + 1), ?_⟩
    · rw [segmentPage_ids]
      apply List.Nodup.map_on _ (List.nodup_range _)
      intro x _ y _ hxy
      have := (mkClauseId_inj hxy).2
      omega
    · intro a ha hb
      obtain ⟨c, hc, hca⟩ := List.mem_map.mp ha
      obtain ⟨c2, hc2, hc2a⟩ := List.mem_map.mp hb
      obtain ⟨-, ⟨s, hs⟩, -⟩ := segmentPage_shape hc
      obtain ⟨s2, hs2⟩ := pagesFrom_id_shape hc2
      have hge := pagesFrom_page_ge hc2
      have : mkClauseId (k + 1) s = mkClauseId c2.page_num s2 := by
        rw [← hs, ← hs2, hca, hc2a]
      have := (mkClauseId_inj this).1
      omega

theorem segFilterMap_texts (page : Nat) :
    ∀ (L : List Str) (k : Nat),
      ((List.enumFrom k L).filterMap
        (fun ip =>
          let cleaned := strip ip.2
          if cleaned.isEmpty then none
          else some ({ clause_id := mkClauseId page (ip.1 + 1),
                       page_num := page,
                       text := cleaned } : Clause))).map (fun c => (c.page_num, c.text)) =
      ((L.map strip).filter fun f => !f.isEmpty).map fun f => (page, f) := by
  intro L
  induction L with
  | nil => intro k; rfl
  | cons F L2 ih =>
    intro k
    by_cases he : (strip F).isEmpty
    · simp only [List.enumFrom_cons, List.filterMap_cons, List.map_cons, List.filter_cons]
      simp [he]
      simpa using ih (k + 1)
    · have he2 : (strip F).isEmpty = false := by simpa using he
      simp only [List.enumFrom_cons, List.filterMap_cons, List.map_cons, List.filter_cons]
      simp [he2]
      simpa using ih (k + 1)

theorem segmentPage_texts (page : Nat) (t : Str) :
    (segmentPage page t).map (fun c => (c.page_num, c.text)) =
      (((splitParas (strip t)).map strip).filter fun f => !f.isEmpty).map
        fun f => (page, f) := by
  unfold segmentPage
  exact segFilterMap_texts page (splitParas (strip t)) 0

theorem pagesFrom_texts : ∀ (pages : List Str) (k : Nat),
    (pagesFrom k pages).map (fun c => (c.page_num, c.text)) =
      (List.enumFrom k pages).flatMap fun it =>
        (((splitParas (strip it.2)).map strip).filter fun f => !f.isEmpty).map
          fun f => (it.1 + 1, f) := by
  intro pages
  induction pages with
  | nil => intro k; rfl
  | cons t rest ih =>
    intro k
    rw [pagesFrom_cons, List.map_append, segmentPage_texts, List.enumFrom_cons,
      List.flatMap_cons, ih (k + 1)]

/-!
Part: Claim theorems: the Clause Segmenter
-/

/-- C3 (counterexample): the segmenter does not split exactly on boundaries
of two-or-more consecutive newline characters.  On the single page
`"a\n \nb"` — which contains no two consecutive newlines, so the claim
predicts the single clause `"a\n \nb"` (modelled by `specC3Texts`) — the
code splits at the `"\n \n"` boundary, matched by its regex `\n\s*\n`, and
produces the two clauses `"a"` and `"b"`. -/
theorem c3_split_counterexample :
    (segment_text_into_clauses [("a\n \nb").data]).map Clause.text =
        [("a").data, ("b").data] ∧
      specC3Texts [("a\n \nb").data] = [("a\n \nb").data] ∧
      (segment_text_into_clauses [("a\n \nb").data]).map Clause.text ≠
        specC3Texts [("a\n \nb").data] := by
  refine ⟨by decide, by decide, by decide⟩

/-- C3 (amended): for every sequence of page texts, the segmenter strips each
page's text and splits it on leftmost-greedy matches of a newline, optional
whitespace, then a newline (the regex `\n\s*\n`, rather than on runs of
two-or-more consecutive newlines); each fragment is trimmed, fragments empty
after trimming are discarded, and input page order and intra-page fragment
order are preserved in the output. -/
theorem c3_amended_segmentation (pages : List Str) :
    (segment_text_into_clauses pages).map (fun c => (c.page_num, c.text)) =
      pages.enum.flatMap fun it =>
        (((splitParas (strip it.2)).map strip).filter fun f => !f.isEmpty).map
          fun f => (it.1 + 1, f) := by
  rw [segment_eq_pagesFrom]
  exact pagesFrom_texts pages 0

/-- C4: every surviving fragment gets a 1-based sequence number local to its
page: for every page number `p`, the clauses of page `p` (in output order)
carry exactly the clause ids `p{p}_c1, p{p}_c2, ...` — consecutive from 1,
restarting on every page. -/
theorem c4_sequence_numbers (pages : List Str) (p : Nat) :
    ((segment_text_into_clauses pages).filter fun c => c.page_num == p).map
        Clause.clause_id =
      (List.range
          ((segment_text_into_clauses pages).filter fun c => c.page_num == p).length).map
        fun j => mkClauseId p (j + 1) := by
  rw [segment_eq_pagesFrom]
  exact pagesFrom_filter_ids p pages 0

/-- C7: no two clauses produced by the segmenter share a `clause_id`: the
list of clause ids of the whole document has no duplicates. -/
theorem c7_clause_ids_nodup (pages : List Str) :
    ((segment_text_into_clauses pages).map Clause.clause_id).Nodup := by
  rw [segment_eq_pagesFrom]
  exact pagesFrom_ids_nodup pages 0

/-- C8: every clause produced by the segmenter has non-empty text that is not
whitespace-only and carries no surrounding whitespace (stripping it again
changes nothing); and a page whose text is empty or whitespace-only
contributes zero clauses to the output. -/
theorem c8_text_invariants :
    (∀ (pages : List Str) (c : Clause), c ∈ segment_text_into_clauses pages →
        c.text ≠ [] ∧ strip c.text = c.text ∧ ∃ ch ∈ c.text, isSpace ch = false) ∧
    (∀ (pre : List Str) (t : Str) (post : List Str),
        (∀ ch ∈ t, isSpace ch = true) →
        (segment_text_into_clauses (pre ++ t :: post)).filter
          (fun c => c.page_num == pre.length + 1) = []) := by
  constructor
  · intro pages c hc
    rw [segment_eq_pagesFrom] at hc
    obtain ⟨i, u, -, hmem⟩ := pagesFrom_mem pages 0 c hc
    obtain ⟨-, -, F, htext, hne⟩ := segmentPage_shape hmem
    refine ⟨by rw [htext]; exact hne, ?_, ?_⟩
    · rw [htext]
      exact strip_idem F
    · rw [htext]
      exact strip_has_nonspace hne
  · intro pre t post hsp
    apply List.filter_eq_nil_iff.mpr
    intro c hc
    rw [segment_eq_pagesFrom] at hc
    obtain ⟨i, u, hu, hmem⟩ := pagesFrom_mem _ 0 c hc
    have hpn := (segmentPage_shape hmem).1
    by_cases hi : i = pre.length
    · subst hi
      have hget : (pre ++ t :: post)[pre.length]? = some t := by
        rw [List.getElem?_append_right (Nat.le_refl _)]
        simp
      rw [hget] at hu
      have hut : u = t := by
        injection hu with h
        exact h.symm
      subst hut
      have h0 : 0 + pre.length + 1 = pre.length + 1 := by omega
      rw [h0, segmentPage_empty (strip_all_space hsp)] at hmem
      simp at hmem
    · simp [hpn]
      omega

/-- C8 (witness): applying the invariant to the one-page document
`["Hello"]` and its only clause, and the zero-clause property to a
whitespace-only page. -/
theorem c8_text_invariants_witness :
    (("Hello").data ≠ [] ∧ strip (("Hello").data) = ("Hello").data ∧
        ∃ ch ∈ ("Hello").data, isSpace ch = false) ∧
      (segment_text_into_clauses [(" \n ").data]).filter
        (fun c => c.page_num == 1) = [] :=
  ⟨c8_text_invariants.1 [("Hello").data]
      ({ clause_id := ("p1_c1").data, page_num := 1, text := ("Hello").data } : Clause)
      (by decide),
    c8_text_invariants.2 [] ((" \n ").data) [] (by decide)⟩

/-!
Part: Claim theorems: indexing and retrieval
-/

/-- C1: code-bug evaluation.  The claim (and spec) say that for an empty
clause list `get_rag_collection` on an empty collection returns a degraded
handle carrying a descriptive `failure_reason`.  In the code, with a
configured key and an empty clause list, the guard
`collection.count() == 0 and clauses` is false, so the function returns the
real, empty collection — not a `DummyCollection`: the returned handle
carries no `failure_reason` at all.  This contradicts the default reason of
`DummyCollection` ("No clauses processed", never constructed by the code)
and the comment in `query_rag_store` claiming the empty-clause case is
handled. -/
theorem c1_empty_clauses_returns_real_handle :
    get_rag_collection (some (("key").data)) [] [] (fun _ _ => .apiErr) =
        ⟨.real [], [], 0⟩ ∧
      ∀ reason,
        (get_rag_collection (some (("key").data)) [] [] (fun _ _ => .apiErr)).handle ≠
          .dummy reason := by
  refine ⟨by decide, ?_⟩
  intro reason h
  rw [show get_rag_collection (some (("key").data)) [] [] (fun _ _ => .apiErr) =
      ⟨.real [], [], 0⟩ from by decide] at h
  exact Collection.noConfusion h

/-- C2: code-bug evaluation.  The claim says `query_rag_store` never raises.
The `count() == 0` branch runs outside the `try` block; on a real collection
with zero entries (exactly what `get_rag_collection` returns for an empty
clause list) the backend search yields no documents and the subscription
`[[]][0][0]` raises an uncaught `IndexError`, modelled as `.error ()`.  On a
`DummyCollection` the same branch does return the stored reason. -/
theorem c2_query_raises_on_real_empty_collection :
    query_rag_store (.real []) (("flood").data) 5
        ⟨.resp { embedding := some [[1]], values := none, embeddings := none },
          fun _ _ => [[]]⟩ = .error () ∧
      ∀ (reason q : Str) (k : Nat) (env : QueryEnv),
        query_rag_store (.dummy reason) q k env = .ok reason := by
  exact ⟨rfl, fun _ _ _ _ => rfl⟩

/-- If every item is well-formed, `extractItems` succeeds. -/
theorem extractItems_all_some :
    ∀ l : List ItemEmb, (∀ e ∈ l, (itemVec e).isSome = true) →
      ∃ ws, extractItems l = some ws := by
  intro l
  induction l with
  | nil => intro _; exact ⟨[], rfl⟩
  | cons e tl ih =>
    intro h
    obtain ⟨v, hv⟩ := Option.isSome_iff_exists.mp (h e (by simp))
    obtain ⟨ws, hws⟩ := ih fun x hx => h x (by simp [hx])
    exact ⟨v :: ws, by simp [extractItems, hv, hws]⟩

/-- C5: per chunk, the embedding call is retried up to 3 attempts on a
transient API error, sleeping `2 ^ attempt` seconds between attempts; a
chunk that fails all 3 attempts makes the whole batching loop propagate an
API error (it is not swallowed there).  Part one: success at attempt `j`
after `j` API errors produces the vectors after waits `2^0, ..., 2^(j-1)`
and `j + 1` calls.  Part two: three API errors exhaust the budget with waits
`2^0, 2^1` and the error propagates.  Part three: the batching loop
propagates the API error of the first failing chunk. -/
theorem c5_retry_backoff :
    (∀ (f : Nat → AttemptOutcome) (j : Nat) (r : EmbResponse) (vs : List Vec),
        j < max_retries → (∀ a, a < j → f a = .apiErr) → f j = .resp r →
        extract_embeddings_from_response r = some vs →
        retryChunk f = ⟨.ok vs, (List.range j).map fun a => 2 ^ a, j + 1⟩) ∧
    (∀ f : Nat → AttemptOutcome, (∀ a, a < max_retries → f a = .apiErr) →
        retryChunk f = ⟨.error .api, [2 ^ 0, 2 ^ 1], max_retries⟩) ∧
    (∀ (oracle : Nat → Nat → AttemptOutcome) (ci : Nat) (cs : List (List Str)) (k : Nat),
        k < cs.length → (retryChunk (oracle (ci + k))).result = .error .api →
        (∀ m, m < k → ∃ vs, (retryChunk (oracle (ci + m))).result = .ok vs) →
        (embedBatchesAux oracle ci cs).1 = .error .api) := by
  refine ⟨?_, ?_, ?_⟩
  · intro f j r vs hj hfail hresp hex
    have hj3 : j < 3 := hj
    interval_cases j
    · simp [retryChunk, retryEmbed, hresp, hex]
    · have h0 := hfail 0 (by omega)
      simp [retryChunk, retryEmbed, max_retries, h0, hresp, hex, List.range_succ]
    · have h0 := hfail 0 (by omega)
      have h1 := hfail 1 (by omega)
      simp [retryChunk, retryEmbed, max_retries, h0, h1, hresp, hex, List.range_succ]
  · intro f h
    have h0 := h 0 (by simp [max_retries])
    have h1 := h 1 (by simp [max_retries])
    have h2 := h 2 (by simp [max_retries])
    simp [retryChunk, retryEmbed, max_retries, h0, h1, h2]
  · intro oracle ci cs
    induction cs generalizing ci with
    | nil => intro k hk; simp at hk
    | cons c rest ih =>
      intro k hk herr hall
      rcases k with _ | k2
      · simp only [embedBatchesAux]
        rw [show ci + 0 = ci from rfl] at herr
        rw [herr]
      · obtain ⟨vs, hok⟩ := hall 0 (by omega)
        rw [show ci + 0 = ci from rfl] at hok
        simp only [embedBatchesAux]
        rw [hok]
        have htail : (embedBatchesAux oracle (ci + 1) rest).1 = .error .api := by
          apply ih (ci + 1) k2 (by simpa using hk)
          · rw [show ci + 1 + k2 = ci + (k2 + 1) from by omega]
            exact herr
          · intro m hm
            rw [show ci + 1 + m = ci + (m + 1) from by omega]
            exact hall (m + 1) (by omega)
        rw [htail]
        rfl

/-- C5 (witness): a stub failing twice then succeeding returns the result
after waits of 1 and 2 seconds and 3 calls; a stub failing three times
exhausts the budget; a first chunk exhausting its retries makes the batching
loop propagate the API error. -/
theorem c5_retry_backoff_witness :
    retryChunk (fun a => if a < 2 then .apiErr
        else .resp { embedding := some [[5]], values := none, embeddings := none }) =
        ⟨.ok [[5]], [1, 2], 3⟩ ∧
      retryChunk (fun _ => .apiErr) = ⟨.error .api, [1, 2], 3⟩ ∧
      (embedBatchesAux (fun _ _ => .apiErr) 0 [[("x").data]]).1 = .error .api :=
  ⟨c5_retry_backoff.1
      (fun a => if a < 2 then .apiErr
        else .resp { embedding := some [[5]], values := none, embeddings := none })
      2 { embedding := some [[5]], values := none, embeddings := none } [[5]]
      (by decide) (fun a ha => if_pos ha) (by decide) (by decide),
    c5_retry_backoff.2.1 (fun _ => .apiErr) (fun a _ => rfl),
    c5_retry_backoff.2.2 (fun _ _ => .apiErr) 0 [[("x").data]] 0 (by decide)
      (by decide) (fun m hm => absurd hm (by omega))⟩

/-- C6 (counterexample): the claim quantifies over every populated
collection, but when `GEMINI_API_KEY` is absent `get_rag_collection` checks
the key before the `count > 0` short-circuit, so even on a populated
collection it returns a `DummyCollection` instead of the existing handle. -/
theorem c6_counterexample :
    (get_rag_collection none [⟨("p1_c1").data, [1], ("hi").data, 1⟩] []
        (fun _ _ => .apiErr)).handle = .dummy msgKeyMissing ∧
      (get_rag_collection none [⟨("p1_c1").data, [1], ("hi").data, 1⟩] []
        (fun _ _ => .apiErr)).handle ≠ .real [⟨("p1_c1").data, [1], ("hi").data, 1⟩] := by
  exact ⟨by decide, by decide⟩

/-- C6 (amended): provided the embedding credential is configured, indexing
is idempotent by emptiness: on every collection that already contains at
least one entry, `get_rag_collection` returns the existing collection
unchanged, performs no embedding calls and adds no entries — so the count
after a second call equals the count after the first. -/
theorem c6_amended_idempotent (key : Str) (store : List Entry)
    (clauses : List Clause) (oracle : Nat → Nat → AttemptOutcome)
    (h : store ≠ []) :
    get_rag_collection (some key) store clauses oracle = ⟨.real store, store, 0⟩ := by
  simp only [get_rag_collection]
  rw [if_neg]
  intro hcond
  exact h (List.length_eq_zero.mp hcond.1)

/-- C6 (amended, witness): a second call on a one-entry collection returns
it unchanged with zero embedding calls. -/
theorem c6_amended_idempotent_witness :
    get_rag_collection (some (("key").data)) [⟨("p1_c1").data, [1], ("hi").data, 1⟩]
        [] (fun _ _ => .apiErr) =
      ⟨.real [⟨("p1_c1").data, [1], ("hi").data, 1⟩],
        [⟨("p1_c1").data, [1], ("hi").data, 1⟩], 0⟩ :=
  c6_amended_idempotent (("key").data) [⟨("p1_c1").data, [1], ("hi").data, 1⟩] []
    (fun _ _ => .apiErr) (by decide)

/-- C9: on a non-degraded handle (a real collection with entries), when the
query embedding succeeds, `query_rag_store` returns the retrieved documents
joined with the separator `"\n---\n"` (a line containing exactly `---`
between each pair), and the literal
"No relevant clauses found in the policy." when the search yields zero
documents. -/
theorem c9_query_concatenation (entries : List Entry) (q : Str) (k : Nat)
    (env : QueryEnv) (r : EmbResponse) (qv : Vec)
    (hne : entries ≠ []) (hout : env.embedOutcome = .resp r)
    (hex : extract_single_embedding r = some qv) :
    ((env.search qv k).flatten ≠ [] →
        query_rag_store (.real entries) q k env =
          .ok (List.intercalate querySep ((env.search qv k).flatten))) ∧
      ((env.search qv k).flatten = [] →
        query_rag_store (.real entries) q k env = .ok msgNoRelevant) := by
  have hcount : ¬(Collection.real entries).count = 0 := by
    simp only [Collection.count]
    simpa [List.length_eq_zero] using hne
  constructor
  · intro hdocs
    simp only [query_rag_store, hout, hex]
    rw [if_neg hcount]
    simp [isEmpty_false_of_ne_nil hdocs]
  · intro hdocs
    simp only [query_rag_store, hout, hex]
    rw [if_neg hcount]
    simp [hdocs]

/-- C9 (witness): a search returning two documents yields them joined by the
`---` separator line; a search returning no documents yields the literal
fallback string. -/
theorem c9_query_concatenation_witness :
    query_rag_store (.real [⟨("p1_c1").data, [1], ("A").data, 1⟩]) (("q").data) 5
        ⟨.resp { embedding := some [[1]], values := none, embeddings := none },
          fun _ _ => [[("A").data, ("B").data]]⟩ = .ok (("A\n---\nB").data) ∧
      query_rag_store (.real [⟨("p1_c1").data, [1], ("A").data, 1⟩]) (("q").data) 5
        ⟨.resp { embedding := some [[1]], values := none, embeddings := none },
          fun _ _ => [[]]⟩ = .ok msgNoRelevant :=
  ⟨(c9_query_concatenation [⟨("p1_c1").data, [1], ("A").data, 1⟩] (("q").data) 5
      ⟨.resp { embedding := some [[1]], values := none, embeddings := none },
        fun _ _ => [[("A").data, ("B").data]]⟩ _ [1] (by decide) rfl (by decide)).1
      (by decide),
    (c9_query_concatenation [⟨("p1_c1").data, [1], ("A").data, 1⟩] (("q").data) 5
      ⟨.resp { embedding := some [[1]], values := none, embeddings := none },
        fun _ _ => [[]]⟩ _ [1] (by decide) rfl (by decide)).2 (by decide)⟩

/-- C10 (counterexample): on a response whose `embeddings` list has a
well-formed first item but a second item exposing neither field, the single
extractor returns the first vector while the batch extractor raises — so
the two normalizers do not agree there, and it is false that both raise,
whether or not such a response counts as "matching a known shape". -/
theorem c10_counterexample :
    extract_single_embedding
        { embedding := none, values := none,
          embeddings := some [⟨some [7], none⟩, ⟨none, none⟩] } = some [7] ∧
      extract_embeddings_from_response
        { embedding := none, values := none,
          embeddings := some [⟨some [7], none⟩, ⟨none, none⟩] } = none := by
  exact ⟨by decide, by decide⟩

/-- C10 (amended): on every response whose per-item list (when that shape is
used) consists only of items exposing a `value` or `embedding` field, the
query-time and indexing-time normalizers agree: `extract_single_embedding`
returns exactly the head of the `extract_embeddings_from_response` result
(raising when the batch extraction raises or yields an empty list); and on a
response with none of the three known attributes both raise. -/
theorem c10_amended_extractors_agree :
    (∀ r : EmbResponse,
        (∀ es, r.embeddings = some es → ∀ e ∈ es, (itemVec e).isSome = true) →
        extract_single_embedding r =
          (extract_embeddings_from_response r).bind List.head?) ∧
    (∀ r : EmbResponse,
        r.embedding = none → r.values = none → r.embeddings = none →
        extract_single_embedding r = none ∧
          extract_embeddings_from_response r = none) := by
  constructor
  · intro r h
    rcases r with ⟨emb, vals, embs⟩
    rcases emb with _ | v
    · rcases vals with _ | v
      · rcases embs with _ | es
        · rfl
        · rcases es with _ | ⟨e, tl⟩
          · rfl
          · obtain ⟨v0, hv0⟩ := Option.isSome_iff_exists.mp
              (h (e :: tl) rfl e (by simp))
            obtain ⟨ws, hws⟩ := extractItems_all_some tl
              fun x hx => h (e :: tl) rfl x (by simp [hx])
            have hsingle : extract_single_embedding
                ⟨none, none, some (e :: tl)⟩ = itemVec e := by
              simp only [extract_single_embedding, itemVec, List.head?]
            rw [hsingle, hv0]
            simp only [extract_embeddings_from_response, extractItems]
            rw [hv0, hws]
            rfl
      · simp [extract_single_embedding, extract_embeddings_from_response]
    · simp [extract_single_embedding, extract_embeddings_from_response]
  · intro r h1 h2 h3
    rcases r with ⟨emb, vals, embs⟩
    simp at h1 h2 h3
    subst h1
    subst h2
    subst h3
    exact ⟨rfl, rfl⟩

/-- C10 (amended, witness): agreement on a well-formed response and the
both-raise behavior on an attribute-free response. -/
theorem c10_amended_extractors_agree_witness :
    extract_single_embedding
        { embedding := some [[3], [4]], values := none, embeddings := none } =
      (extract_embeddings_from_response
        { embedding := some [[3], [4]], values := none, embeddings := none }).bind
          List.head? ∧
    (extract_single_embedding { embedding := none, values := none, embeddings := none } =
        none ∧
      extract_embeddings_from_response
        { embedding := none, values := none, embeddings := none } = none) :=
  ⟨c10_amended_extractors_agree.1
      { embedding := some [[3], [4]], values := none, embeddings := none }
      (fun _ hes => Option.noConfusion hes),
    c10_amended_extractors_agree.2
      { embedding := none, values := none, embeddings := none } rfl rfl rfl⟩

end InsDec
